import Mathlib

/-!
Verification of the reV generation execution engine (`reV/generation/generation.py`
and `reV/generation/cli_gen.py`) against its natural-language specification.

Python strings are embedded as lists of characters (`PyStr`), Python dicts keyed
by site identifiers as insertion-ordered association lists with first-match
lookup and in-place replacement on key collision, and fallible Python code as
`Except`-valued functions.  Filesystem state is embedded as the list of paths
that currently exist.
-/

/-- A Python string, embedded as its list of characters. -/
abbrev PyStr := List Char

/-- Convert a Lean string literal to its `PyStr` embedding. -/
def toL (s : String) : PyStr := s.data

deriving instance DecidableEq for Except

/-- Python `s.startswith(pat)` on the character-list embedding. -/
def startsWithL : PyStr → PyStr → Bool
  | _, [] => true
  | [], _ :: _ => false
  | c :: t, d :: u => c == d && startsWithL t u

/-- Python `s.endswith(pat)` on the character-list embedding. -/
def endsWithL (s pat : PyStr) : Bool :=
  startsWithL s.reverse pat.reverse

/-- Python `pat in s` (substring test) on the character-list embedding. -/
def containsL : PyStr → PyStr → Bool
  | [], pat => pat.isEmpty
  | c :: t, pat => startsWithL (c :: t) pat || containsL t pat

/-- Python `s.lower()` on the character-list embedding. -/
def lowerL (s : PyStr) : PyStr := s.map Char.toLower

/-- The recursion of `pyReplace`, made structural on an explicit fuel that
bounds the number of characters still to inspect. -/
def pyReplaceAux (old new : PyStr) : ℕ → PyStr → PyStr
  | 0, s => s
  | _ + 1, [] => []
  | fuel + 1, c :: t =>
    if startsWithL (c :: t) old && !old.isEmpty then
      new ++ pyReplaceAux old new fuel (t.drop (old.length - 1))
    else
      c :: pyReplaceAux old new fuel t

/-- Python `s.replace(old, new)` (all non-overlapping occurrences, left to
right) on the character-list embedding.  Every call site in the embedded code
passes a non-empty `old`, so the Python special case of an empty pattern is
out of scope and treated as the identity. -/
def pyReplace (old new s : PyStr) : PyStr := pyReplaceAux old new s.length s

/-- Python `s.lstrip(chars)`: remove leading characters belonging to the set
`chars` (a character set, not a substring). -/
def lstripSet (chars : PyStr) : PyStr → PyStr
  | [] => []
  | c :: t => if chars.contains c then lstripSet chars t else c :: t

/-- Python `s.strip(chars)`: remove leading and trailing characters belonging
to the character set `chars`. -/
def stripSet (chars : PyStr) (s : PyStr) : PyStr :=
  lstripSet chars (lstripSet chars s.reverse).reverse

/-- The decimal digit character for a value below ten ('9' for anything
larger, which never occurs at call sites). -/
def digitCh : ℕ → Char
  | 0 => '0' | 1 => '1' | 2 => '2' | 3 => '3' | 4 => '4'
  | 5 => '5' | 6 => '6' | 7 => '7' | 8 => '8' | _ => '9'

/-- The recursion of `natDigits`, made structural on an explicit fuel that
bounds the number of digits. -/
def natDigitsAux : ℕ → ℕ → PyStr
  | 0, _ => []
  | fuel + 1, n =>
    if n < 10 then [digitCh n]
    else natDigitsAux fuel (n / 10) ++ [digitCh (n % 10)]

/-- Python `str(n)` for a natural number: its decimal digit characters. -/
def natDigits (n : ℕ) : PyStr := natDigitsAux (n + 1) n

/-- Python `str(n).zfill(3)`: the decimal representation left-padded with
zeros to at least three characters. -/
def zfill3 (n : ℕ) : PyStr :=
  let s := natDigits n
  List.replicate (3 - s.length) '0' ++ s

/-- Python `'{:02d}'.format(i)`: the decimal representation left-padded with
zeros to at least two characters. -/
def fmt02 (i : ℕ) : PyStr :=
  let s := natDigits i
  List.replicate (2 - s.length) '0' ++ s

/-- Python `int(t)` for a string of decimal digit characters. -/
def tagVal (t : PyStr) : ℕ :=
  t.foldl (fun a c => a * 10 + (c.toNat - 48)) 0

/-- A Python dict keyed by site identifiers (naturals), embedded as its
insertion-ordered association list.  Lookup takes the first match; the keys of
any dict built by the embedded operations are unique, as in Python. -/
abbrev PyDict (V : Type) := List (ℕ × V)

/-- Python `d[k]` lookup returning `none` instead of `KeyError`. -/
def dictGet {V : Type} : PyDict V → ℕ → Option V
  | [], _ => none
  | p :: t, k => if p.1 == k then some p.2 else dictGet t k

/-- Python `d[k] = v`: replace the value in place when the key is present,
append the pair otherwise. -/
def dictInsert {V : Type} : PyDict V → ℕ → V → PyDict V
  | [], k, v => [(k, v)]
  | p :: t, k, v => if p.1 == k then (k, v) :: t else p :: dictInsert t k v

/-- Python `d.update(x)`: set every key of `x` in `d`, in `x`'s order. -/
def dictUpdate {V : Type} (d x : PyDict V) : PyDict V :=
  x.foldl (fun acc kv => dictInsert acc kv.1 kv.2) d

/-- A SAM simulation function as consumed by `Gen.run`: given a
points-control chunk (identified by a natural), a resource file name and the
output request, either return a Result Record or raise.  The output payload
of a site record is abstract (`V`). -/
def SimFun (V : Type) := ℕ → PyStr → List PyStr → Except PyStr (PyDict V)

/-- `Gen.funs`: the mapping of available SAM generation functions, keyed by
technology name.  The four `reV_run` functions live in the external
`reV.SAM` package, so they are parameters of the embedding; an absent key
is the `KeyError` raised by the Python dict lookup. -/
def Gen.funs {V : Type} (pv csp lbw osw : SimFun V) (tech : PyStr) :
    Option (SimFun V) :=
  if tech = toL ("pv") then some pv
  else if tech = toL ("csp") then some csp
  else if tech = toL ("landbasedwind") then some lbw
  else if tech = toL ("offshorewind") then some osw
  else none

/-- The body of the `try` block in `Gen.run`: look up the SAM generation
function for `tech` in the function table (a missing key raises `KeyError`)
and invoke it on the chunk. -/
def Gen.run_body {V : Type} (funs : PyStr → Option (SimFun V))
    (points_control : ℕ) (tech : PyStr) (res_file : PyStr)
    (output_request : List PyStr) : Except PyStr (PyDict V) :=
  match funs tech with
  | none => Except.error (toL ("KeyError"))
  | some f => f points_control res_file output_request

/-- What one call of `Gen.run` produces: the Result Record it returns and
the log records it emits. -/
structure RunOutput (V : Type) where
  out : PyDict V
  log : List PyStr
deriving DecidableEq

/-- `Gen.run`: run the SAM generation function for one chunk inside a
`try/except Exception` block; on any exception the worker logs
`'Worker failed for PC: {points_control}'` and returns an empty dict. -/
def Gen.run {V : Type} (funs : PyStr → Option (SimFun V)) (points_control : ℕ)
    (tech : PyStr) (res_file : PyStr) (output_request : List PyStr) :
    RunOutput V :=
  match Gen.run_body funs points_control tech res_file output_request with
  | Except.ok o => ⟨o, []⟩
  | Except.error _ => ⟨[], [toL ("Worker failed for PC: ") ++ natDigits points_control]⟩

/-- `Gen.unpack_futures`: combine a list of futures results (each a Result
Record dict) into one dict via repeated `dict.update`. -/
def Gen.unpack_futures {V : Type} (futures : List (PyDict V)) : PyDict V :=
  futures.foldl dictUpdate []

/-- The admissible runtime types of the value assigned to `Gen.out`: a list
of futures results, a single Result Record dict, or `None`.  Any other
runtime type raises `TypeError`, which the tagged union makes unrepresentable. -/
inductive GenResult (V : Type)
  | rlist (futures : List (PyDict V))
  | rdict (record : PyDict V)
  | rnone

/-- The `Gen.out` setter: update the accumulated Result Table from a list of
futures (via `unpack_futures`) or a single dict, or clear it on `None`. -/
def Gen.out_setter {V : Type} (current : PyDict V) : GenResult V → PyDict V
  | .rlist futures => dictUpdate current (Gen.unpack_futures futures)
  | .rdict record => dictUpdate current record
  | .rnone => []

/-- Whether the pattern `_x` followed by three decimal digits matches at the
position whose first character is `c` and remaining characters are `t`;
group 1 of the regex is the three digits. -/
def tagAt : Char → PyStr → Option PyStr
  | '_', 'x' :: d1 :: d2 :: d3 :: _ =>
    if d1.isDigit && d2.isDigit && d3.isDigit then some [d1, d2, d3]
    else none
  | _, _ => none

/-- The semantics of `re.match(r'.*_x([0-9]{3})', fout)` in
`Gen.get_unique_fout`: with the greedy leading `.*`, the regex matches
exactly when some position of the string holds `_x` followed by three
decimal digits, and group 1 holds the three digits of the last such
occurrence. -/
def lastTag : PyStr → Option PyStr
  | [] => none
  | c :: t => (lastTag t).elim (tagAt c t) some

/-- All paths that currently exist on the filesystem. -/
abbrev FileSys := List PyStr

/-- `Gen.get_unique_fout`: while the target exists and carries a `_x###`
tag, increment the tag (zero-filled to three digits) and retry.  The source
recursion has no explicit bound, so the embedding takes an explicit `fuel`
for the recursion depth and returns the current candidate when it is
exhausted. -/
def Gen.get_unique_fout (fs : FileSys) : ℕ → PyStr → PyStr
  | 0, fout => fout
  | fuel + 1, fout =>
    if fs.contains fout then
      match lastTag fout with
      | some tag =>
        Gen.get_unique_fout fs fuel
          (pyReplace (toL ("_x") ++ tag) (toL ("_x") ++ zfill3 (tagVal tag + 1)) fout)
      | none => fout
    else fout

/-- `Gen.handle_fout`: append the `.h5` extension when missing (with a
warning, recorded in the returned flag), prepend the output directory when
one is given, seed the `_x000` tag, and disambiguate against existing
files.  Directory creation is a filesystem side effect outside the naming
contract. -/
def Gen.handle_fout (fs : FileSys) (fuel : ℕ) (fout : PyStr)
    (dirout : Option PyStr) : PyStr × Bool :=
  let warned := !endsWithL fout (toL (".h5"))
  let fout1 := if endsWithL fout (toL (".h5")) then fout else fout ++ toL (".h5")
  let fout2 :=
    match dirout with
    | none => fout1
    | some d => d ++ '/' :: fout1
  let fout3 := pyReplace (toL (".h5")) (toL ("_x000.h5")) fout2
  (Gen.get_unique_fout fs fuel fout3, warned)

/-- One disk write performed by `Gen.flush`: the resolved target file and
whether profiles or means are written. -/
inductive WriteAction
  | writeProfiles (fout : PyStr)
  | writeMeans (fout : PyStr)
deriving DecidableEq

/-- `Gen.flush`: write the accumulated Result Table to disk only when an
output filename string is configured and the table is non-empty; choose
profile output when the string representation of the output request
mentions 'profile'. -/
def Gen.flush {V : Type} (fs : FileSys) (fuel : ℕ) (fout : Option PyStr)
    (dirout : Option PyStr) (output_request : List PyStr) (out : PyDict V) :
    Option WriteAction :=
  match fout with
  | none => none
  | some f =>
    if out.isEmpty then none
    else
      let target := (Gen.handle_fout fs fuel f dirout).1
      if output_request.any (fun s => containsL s (toL ("profile"))) then
        some (.writeProfiles target)
      else some (.writeMeans target)

/-- One entry of the resource time index. -/
structure TimeStamp where
  year : ℕ
  month : ℕ
  day : ℕ
  hour : ℕ
deriving DecidableEq

/-- The boolean leap-day mask of `Gen.time_index`:
`(month == 2) & (day == 29)` per entry. -/
def leapMask (ti : List TimeStamp) : List Bool :=
  ti.map (fun t => t.month == 2 && t.day == 29)

/-- `Gen.time_index`: the resource time index with every entry selected by
the leap-day mask dropped. -/
def Gen.time_index (ti : List TimeStamp) : List TimeStamp :=
  ((ti.zip (leapMask ti)).filter (fun p => !p.2)).map Prod.fst

/-- The readable aspects of a resource file used by `Gen.sites_per_core`:
its name, its dataset names, and each dataset's on-disk chunk shape
(`none` when chunking is not set; accessing a dataset absent from `dsets`
raises `KeyError`). -/
structure ResFile where
  name : PyStr
  dsets : List PyStr
  chunkShape : PyStr → Option (ℕ × ℕ)

/-- `Gen.sites_per_core`: read the nominal x-chunk size from a windspeed
dataset (wtk files) or the dni dataset (nsrdb files); fall back to the
default when chunking is unset; raise for any other filename.  A wtk file
with no windspeed dataset leaves `chunks` unbound (`NameError`), and an
nsrdb file without dni raises `KeyError`. -/
def Gen.sites_per_core (res : ResFile) (default : ℕ) : Except PyStr ℕ :=
  let chunksE : Except PyStr (Option (ℕ × ℕ)) :=
    if containsL (lowerL res.name) (toL ("wtk")) then
      match res.dsets.find? (fun d => containsL d (toL ("speed"))) with
      | some d => Except.ok (res.chunkShape d)
      | none => Except.error (toL ("NameError: chunks"))
    else if containsL (lowerL res.name) (toL ("nsrdb")) then
      if res.dsets.contains (toL ("dni")) then
        Except.ok (res.chunkShape (toL ("dni")))
      else Except.error (toL ("KeyError: dni"))
    else
      Except.error (toL ("Expected nsrdb or wtk to be in resource filename"))
  match chunksE with
  | Except.error e => Except.error e
  | Except.ok none => Except.ok default
  | Except.ok (some c) => Except.ok c.2

/-- The chunk-size derivation at the head of `Gen.run_smart`: when
`sites_per_split` is `None` it is taken from `Gen.sites_per_core` with its
default of 100. -/
def Gen.run_smart_sites_per_split (sites_per_split : Option ℕ) (res : ResFile) :
    Except PyStr ℕ :=
  match sites_per_split with
  | some s => Except.ok s
  | none => Gen.sites_per_core res 100

/-- The per-node chunk size computed in `get_node_pc` (cli_gen.py):
`ceil(len(pp) / nodes)`, embedded as the natural-number ceiling. -/
def sites_per_node (total nodes : ℕ) : ℕ := (total + nodes - 1) / nodes

/-- Modelled from the spec: `PointsControl` (defined in
`reV.config.project_points`, which is not part of this repository snapshot)
iterates the site index range `[0, total)` as consecutive chunks of
`sites_per_split` sites each, the last chunk possibly smaller. -/
def pointsControlRanges (total s : ℕ) : List (ℕ × ℕ) :=
  (List.range ((total + s - 1) / s)).map (fun i => (i * s, min ((i + 1) * s) total))

/-- `get_node_pc`: the contiguous per-node site sub-ranges obtained by
instantiating `PointsControl` with `sites_per_split = ceil(total / nodes)`. -/
def get_node_pc_ranges (total nodes : ℕ) : List (ℕ × ℕ) :=
  pointsControlRanges total (sites_per_node total nodes)

/-- `get_node_name_fout` (cli_gen.py): build the node-unique job name
(base name cut to the scheduler's limit, then the `'{:02d}'`-formatted node
index) and the node-unique output file name (`fout` with a final `.h5`
removed by `strip('.h5')`, then `_node##.h5`).  The scheduler name is
compared against the literals 'slurm' and 'pbs' (the source's `is`
comparison on interned literals); any other value leaves `lim` unbound and
raises `NameError`. -/
def get_node_name_fout (name fout : PyStr) (i : ℕ) (hpc : PyStr) :
    Except PyStr (PyStr × PyStr) :=
  if hpc = toL ("slurm") ∨ hpc = toL ("pbs") then
    let lim : ℕ := if hpc = toL ("slurm") then 6 else 14
    let node_name := name.take lim ++ fmt02 i
    let fout1 :=
      if endsWithL fout (toL (".h5")) then stripSet (toL (".h5")) fout else fout
    let fout_node := fout1 ++ toL ("_node") ++ fmt02 i ++ toL (".h5")
    Except.ok (node_name, fout_node)
  else Except.error (toL ("NameError: lim"))

/-- A concrete simulation function that always succeeds with the given
Result Record (used to instantiate the embedding at concrete inputs). -/
def okSim (d : PyDict ℕ) : SimFun ℕ := fun _ _ _ => Except.ok d

/-- A concrete simulation function that always raises (used to instantiate
the embedding at concrete inputs). -/
def errSim : SimFun ℕ := fun _ _ _ => Except.error (toL ("boom"))

/-- The canonical shape of the file names produced by `Gen.handle_fout`:
a base stem followed by the `_x` tag (zero-filled to three digits) and the
`.h5` extension. -/
def taggedName (base : PyStr) (n : ℕ) : PyStr :=
  base ++ toL ("_x") ++ zfill3 n ++ toL (".h5")
theorem dictGet_dictInsert {V : Type} (d : PyDict V) (k k' : ℕ) (v : V) :
    dictGet (dictInsert d k v) k' = if k' = k then some v else dictGet d k' := by
  induction d with
  | nil =>
    simp only [dictInsert, dictGet, beq_iff_eq]
    split_ifs <;> simp_all
  | cons p t ih =>
    simp only [dictInsert, beq_iff_eq]
    by_cases hp : p.1 = k
    · clear ih
      simp only [hp, if_true, dictGet, beq_iff_eq]
      by_cases h : k' = k
      · simp [h]
      · have hne : ¬ (k = k') := fun hkk => h hkk.symm
        have hp' : ¬ (p.1 = k') := by rw [hp]; exact hne
        simp [h, hne, hp']
    · simp only [hp, if_false, dictGet, beq_iff_eq, ih]
      split_ifs <;> simp_all

theorem dictGet_mem_keys {V : Type} {t : PyDict V} {k : ℕ} {w : V}
    (hw : dictGet t k = some w) : k ∈ t.map Prod.fst := by
  induction t with
  | nil => simp [dictGet] at hw
  | cons q u ihq =>
    simp only [dictGet, beq_iff_eq] at hw
    by_cases hq : q.1 = k
    · simp [hq.symm]
    · simp only [hq, if_false] at hw
      simp [ihq hw]

theorem dictGet_dictUpdate {V : Type} (x : PyDict V)
    (hx : (x.map Prod.fst).Nodup) (d : PyDict V) (k : ℕ) :
    dictGet (dictUpdate d x) k =
      (dictGet x k).elim (dictGet d k) some := by
  induction x generalizing d with
  | nil => simp [dictUpdate, dictGet]
  | cons p t ih =>
    simp only [List.map_cons, List.nodup_cons] at hx
    have hstep : dictUpdate d (p :: t) = dictUpdate (dictInsert d p.1 p.2) t := by
      simp [dictUpdate]
    rw [hstep, ih hx.2]
    by_cases hk : dictGet t k = none
    · simp only [hk, Option.elim, dictGet_dictInsert]
      by_cases hkp : k = p.1
      · simp [dictGet, hkp, beq_iff_eq]
      · have : ¬ (p.1 = k) := fun h => hkp h.symm
        simp [dictGet, beq_iff_eq, this, hk, hkp]
    · obtain ⟨w, hw⟩ := Option.ne_none_iff_exists'.mp hk
      have hkp : p.1 ≠ k := fun h => hx.1 (h ▸ dictGet_mem_keys hw)
      simp [hw, dictGet, beq_iff_eq, hkp]


/-- C1: for every chunk, technology, resource file and output request with a
simulation function registered for the technology, if the simulation function
raises then `Gen.run` catches the exception, logs it with the chunk's
identity, and returns an empty Result Record; if it does not raise, `Gen.run`
returns exactly the mapping it produced.  Being a total function into
`RunOutput`, `Gen.run` never propagates a failure that could abort sibling
chunks or the overall run. -/
theorem gen_run_failure_isolation {V : Type}
    (funs : PyStr → Option (SimFun V)) (pc : ℕ) (tech res_file : PyStr)
    (output_request : List PyStr) (f : SimFun V) (hf : funs tech = some f) :
    (∀ e, f pc res_file output_request = Except.error e →
      Gen.run funs pc tech res_file output_request =
        ⟨[], [toL ("Worker failed for PC: ") ++ natDigits pc]⟩)
    ∧ (∀ o, f pc res_file output_request = Except.ok o →
      Gen.run funs pc tech res_file output_request = ⟨o, []⟩) := by
  constructor
  · intro e he
    simp [Gen.run, Gen.run_body, hf, he]
  · intro o ho
    simp [Gen.run, Gen.run_body, hf, ho]

/-- Witness for `gen_run_failure_isolation`: a concrete raising simulation
function yields the empty record plus a log line, a concrete succeeding one
yields exactly its mapping. -/
theorem gen_run_failure_isolation_witness :
    Gen.run (Gen.funs errSim (okSim []) (okSim []) (okSim [])) 3 (toL ("pv"))
        (toL ("r.h5")) [toL ("cf_mean")] =
      ⟨[], [toL ("Worker failed for PC: ") ++ natDigits 3]⟩
    ∧ Gen.run (Gen.funs (okSim [(0, 5)]) errSim errSim errSim) 3 (toL ("pv"))
        (toL ("r.h5")) [toL ("cf_mean")] = ⟨[(0, 5)], []⟩ :=
  ⟨(gen_run_failure_isolation _ 3 _ _ _ errSim rfl).1 _ rfl,
   (gen_run_failure_isolation _ 3 _ _ _ (okSim [(0, 5)]) rfl).2 _ rfl⟩

/-- C5 counterexample: with the four-entry technology table, running a chunk
with the unrecognized technology 'solar' raises `KeyError` inside the `try`
block of `Gen.run`, and `Gen.run` absorbs it into an empty Result Record with
a log line — an accepted chunk result — instead of propagating a
configuration error to the caller. -/
theorem unknown_tech_counterexample :
    Gen.run_body (Gen.funs (okSim [(0, 1)]) (okSim [(0, 1)]) (okSim [(0, 1)])
        (okSim [(0, 1)])) 0 (toL ("solar")) (toL ("r.h5")) [] =
      Except.error (toL ("KeyError"))
    ∧ Gen.run (Gen.funs (okSim [(0, 1)]) (okSim [(0, 1)]) (okSim [(0, 1)])
        (okSim [(0, 1)])) 0 (toL ("solar")) (toL ("r.h5")) [] =
      ⟨[], [toL ("Worker failed for PC: ") ++ natDigits 0]⟩ :=
  ⟨rfl, rfl⟩

/-- C5 (amended): for every technology name outside the recognized table keys
('pv', 'csp', 'landbasedwind', 'offshorewind'), the failing table lookup
happens inside `Gen.run`'s `try` block and is caught by the chunk-level
exception handler like any simulation failure: the chunk is logged and
contributes an empty Result Record, and no configuration error propagates to
the caller. -/
theorem unknown_tech_absorbed {V : Type} (pv csp lbw osw : SimFun V)
    (pc : ℕ) (tech res_file : PyStr) (output_request : List PyStr)
    (h : tech ∉ [toL ("pv"), toL ("csp"), toL ("landbasedwind"),
      toL ("offshorewind")]) :
    Gen.run (Gen.funs pv csp lbw osw) pc tech res_file output_request =
      ⟨[], [toL ("Worker failed for PC: ") ++ natDigits pc]⟩ := by
  simp only [List.mem_cons, List.mem_singleton, not_or] at h
  obtain ⟨h1, h2, h3, h4⟩ := h
  simp [Gen.run, Gen.run_body, Gen.funs, h1, h2, h3, h4]

/-- Witness for `unknown_tech_absorbed` at the concrete unrecognized
technology name 'solar'. -/
theorem unknown_tech_absorbed_witness :
    Gen.run (Gen.funs (okSim []) (okSim []) (okSim []) (okSim [])) 7
        (toL ("solar")) (toL ("r.h5")) [] =
      ⟨[], [toL ("Worker failed for PC: ") ++ natDigits 7]⟩ :=
  unknown_tech_absorbed _ _ _ _ 7 _ _ _ (by decide)

/-- C3: `Gen.flush` performs a write exactly when an output filename string
is configured and the accumulated Result Table is non-empty; with no
filename or an empty table it performs no write at all (and, being total,
raises no error), so an empty file is never created. -/
theorem gen_flush_gating {V : Type} (fs : FileSys) (fuel : ℕ)
    (fout : Option PyStr) (dirout : Option PyStr)
    (output_request : List PyStr) (out : PyDict V) :
    (Gen.flush fs fuel fout dirout output_request out).isSome =
      (fout.isSome && !out.isEmpty) := by
  cases fout with
  | none => rfl
  | some f =>
    simp only [Gen.flush, Option.isSome_some, Bool.true_and]
    by_cases h : out.isEmpty
    · simp [h]
    · rw [if_neg h]
      simp only [Bool.not_eq_true] at h
      simp only [h, Bool.not_false]
      split <;> rfl

theorem time_index_eq_filter (ti : List TimeStamp) :
    Gen.time_index ti = ti.filter (fun t => !(t.month == 2 && t.day == 29)) := by
  induction ti with
  | nil => rfl
  | cons t ts ih =>
    simp only [Gen.time_index, leapMask, List.map_cons, List.zip_cons_cons,
      List.filter_cons] at ih ⊢
    by_cases h : (t.month == 2 && t.day == 29) = true
    · simp [h, ih]
    · simp only [Bool.not_eq_true] at h
      simp [h, ih]

/-- C7: the effective time index equals the raw resource time index with
exactly the entries whose month is 2 and day is 29 removed (a filter keeps
every other entry, in order), and a time index containing no such entry is
returned unchanged. -/
theorem time_index_leap_exclusion (ti : List TimeStamp) :
    Gen.time_index ti = ti.filter (fun t => !(t.month == 2 && t.day == 29))
    ∧ ((∀ t ∈ ti, ¬(t.month = 2 ∧ t.day = 29)) → Gen.time_index ti = ti) := by
  refine ⟨time_index_eq_filter ti, fun h => ?_⟩
  rw [time_index_eq_filter ti]
  apply List.filter_eq_self.mpr
  intro a ha
  have ha2 := h a ha
  by_cases hm : a.month = 2 <;> by_cases hd : a.day = 29 <;> simp_all

/-- Witness for `time_index_leap_exclusion` on a concrete time index with no
leap-day entry. -/
theorem time_index_leap_exclusion_witness :
    Gen.time_index [⟨2012, 1, 1, 0⟩, ⟨2012, 2, 28, 23⟩, ⟨2012, 3, 1, 0⟩] =
      [⟨2012, 1, 1, 0⟩, ⟨2012, 2, 28, 23⟩, ⟨2012, 3, 1, 0⟩] :=
  (time_index_leap_exclusion _).2 (by decide)

/-- C2 counterexample: two Result Records binding site 0 to different outputs
are permutations of each other as sequences, yet merge to different Result
Tables in the two orders — the `unpack_futures` merge is not
order-independent in the presence of conflicting duplicate keys. -/
theorem unpack_futures_order_counterexample :
    ([[(0, 1)], [(0, 2)]] : List (PyDict ℕ)).Perm [[(0, 2)], [(0, 1)]]
    ∧ dictGet (Gen.unpack_futures ([[(0, 1)], [(0, 2)]] : List (PyDict ℕ))) 0 ≠
        dictGet (Gen.unpack_futures ([[(0, 2)], [(0, 1)]] : List (PyDict ℕ))) 0 := by
  constructor
  · decide
  · decide

theorem unpack_futures_append {V : Type} (l : List (PyDict V)) (r : PyDict V) :
    Gen.unpack_futures (l ++ [r]) = dictUpdate (Gen.unpack_futures l) r := by
  simp [Gen.unpack_futures, List.foldl_append, dictUpdate]

theorem unpack_futures_none_iff {V : Type} (k : ℕ) (l : List (PyDict V)) :
    (∀ x ∈ l, (x.map Prod.fst).Nodup) →
    (dictGet (Gen.unpack_futures l) k = none ↔ ∀ x ∈ l, dictGet x k = none) := by
  induction l using List.reverseRecOn with
  | nil => intro _; simp [Gen.unpack_futures, dictGet]
  | append_singleton l r ih =>
    intro hn
    rw [unpack_futures_append]
    have hr : (r.map Prod.fst).Nodup := hn r (by simp)
    rw [dictGet_dictUpdate r hr]
    have ihl := ih (fun s hs => hn s (by simp [hs]))
    cases hrk : dictGet r k with
    | none =>
      simp only [Option.elim]
      rw [ihl]
      constructor
      · intro ha s hs
        rcases List.mem_append.mp hs with h1 | h1
        · exact ha s h1
        · simp only [List.mem_singleton] at h1
          subst h1
          exact hrk
      · intro ha s hs
        exact ha s (by simp [hs])
    | some w =>
      simp only [Option.elim]
      constructor
      · intro hc
        cases hc
      · intro ha
        have hcontra := ha r (by simp)
        rw [hcontra] at hrk
        cases hrk

theorem unpack_futures_some {V : Type} (k : ℕ) (r : PyDict V) (v : V)
    (l : List (PyDict V)) :
    (∀ x ∈ l, (x.map Prod.fst).Nodup) →
    (∀ x ∈ l, ∀ s ∈ l, ∀ a b : V,
      dictGet x k = some a → dictGet s k = some b → a = b) →
    r ∈ l → dictGet r k = some v →
    dictGet (Gen.unpack_futures l) k = some v := by
  induction l using List.reverseRecOn with
  | nil =>
    intro _ _ hr _
    cases hr
  | append_singleton l s ih =>
    intro hn hc hr hv
    rw [unpack_futures_append]
    have hs : (s.map Prod.fst).Nodup := hn s (by simp)
    rw [dictGet_dictUpdate s hs]
    cases hsk : dictGet s k with
    | some w =>
      simp only [Option.elim]
      have hwv : w = v := hc s (by simp) r hr w v hsk hv
      rw [hwv]
    | none =>
      simp only [Option.elim]
      have hrl : r ∈ l := by
        rcases List.mem_append.mp hr with h1 | h1
        · exact h1
        · simp only [List.mem_singleton] at h1
          subst h1
          rw [hv] at hsk
          cases hsk
      exact ih (fun x hx => hn x (by simp [hx]))
        (fun x hx y hy => hc x (by simp [hx]) y (by simp [hy])) hrl hv

/-- C2 (amended): the Result Record merge of `unpack_futures` and the `out`
setter's `dict.update` is last-write-wins on duplicate site keys (first
conjunct); and the merge is order-independent — every merge order of the
same records yields the same final Result Table contents — whenever no two
records bind the same site to different outputs, as under correct disjoint
chunk partitioning (second conjunct).  With conflicting duplicate keys the
result is order-dependent, as the counterexample shows. -/
theorem unpack_futures_merge_amended {V : Type} :
    (∀ (d x : PyDict V) (k : ℕ) (v : V), (x.map Prod.fst).Nodup →
      dictGet x k = some v → dictGet (dictUpdate d x) k = some v)
    ∧ (∀ l1 l2 : List (PyDict V), l1.Perm l2 →
      (∀ x ∈ l1, (x.map Prod.fst).Nodup) →
      (∀ k : ℕ, ∀ x ∈ l1, ∀ s ∈ l1, ∀ a b : V,
        dictGet x k = some a → dictGet s k = some b → a = b) →
      ∀ k, dictGet (Gen.unpack_futures l1) k =
        dictGet (Gen.unpack_futures l2) k) := by
  constructor
  · intro d x k v hx hv
    rw [dictGet_dictUpdate x hx, hv]
    rfl
  · intro l1 l2 hperm hn hc k
    have hn2 : ∀ x ∈ l2, (x.map Prod.fst).Nodup :=
      fun x hx => hn x (hperm.mem_iff.mpr hx)
    have hc2 : ∀ x ∈ l2, ∀ s ∈ l2, ∀ a b : V,
        dictGet x k = some a → dictGet s k = some b → a = b :=
      fun x hx s hs => hc k x (hperm.mem_iff.mpr hx) s (hperm.mem_iff.mpr hs)
    by_cases hall : ∀ x ∈ l1, dictGet x k = none
    · have e1 := (unpack_futures_none_iff k l1 hn).mpr hall
      have e2 := (unpack_futures_none_iff k l2 hn2).mpr
        (fun x hx => hall x (hperm.mem_iff.mpr hx))
      rw [e1, e2]
    · push_neg at hall
      obtain ⟨x, hx, hxk⟩ := hall
      obtain ⟨w, hw⟩ := Option.ne_none_iff_exists'.mp hxk
      have e1 := unpack_futures_some k x w l1 hn (hc k) hx hw
      have e2 := unpack_futures_some k x w l2 hn2 hc2 (hperm.mem_iff.mp hx) hw
      rw [e1, e2]

/-- Witness for `unpack_futures_merge_amended`: last-write-wins at a
concrete update, and order-independence at a concrete pair of disjoint
Result Records. -/
theorem unpack_futures_merge_amended_witness :
    dictGet (dictUpdate ([(1, 9)] : PyDict ℕ) [(1, 4)]) 1 = some 4
    ∧ dictGet (Gen.unpack_futures ([[(0, 1)], [(1, 2)]] : List (PyDict ℕ))) 0 =
        dictGet (Gen.unpack_futures ([[(1, 2)], [(0, 1)]] : List (PyDict ℕ))) 0 := by
  constructor
  · exact unpack_futures_merge_amended.1 [(1, 9)] [(1, 4)] 1 4 (by decide) (by decide)
  · refine unpack_futures_merge_amended.2 [[(0, 1)], [(1, 2)]] [[(1, 2)], [(0, 1)]]
      (by decide) (by decide) ?_ 0
    intro k x hx s hs a b hxa hsb
    simp only [List.mem_cons, List.mem_singleton, List.not_mem_nil, or_false] at hx hs
    rcases hx with rfl | rfl <;> rcases hs with rfl | rfl <;>
      simp [dictGet] at hxa hsb <;> omega

/-- C6 counterexample: with `sites_per_split` unspecified, the chunk-size
derivation of `run_smart` raises for a resource file whose name holds
neither 'wtk' nor 'nsrdb' — even one whose chunking hint is unavailable —
instead of falling back to the default of 100. -/
theorem sites_per_core_counterexample :
    Gen.run_smart_sites_per_split none
        ⟨toL ("data.h5"), [toL ("dni")], fun _ => none⟩ =
      Except.error (toL ("Expected nsrdb or wtk to be in resource filename")) :=
  rfl

/-- C6 (amended): when `sites_per_split` is unspecified, `run_smart` derives
it from the resource file's native on-disk chunking via `sites_per_core`:
for an nsrdb file with a dni dataset, or a wtk file with a windspeed
dataset, an unset chunking hint falls back to the fixed default of 100; but
for a resource file recognized as neither wtk nor nsrdb the derivation
raises instead of falling back.  An explicit `sites_per_split` is used as
given. -/
theorem run_smart_chunk_default_amended (res : ResFile) :
    (containsL (lowerL res.name) (toL ("wtk")) = false →
      containsL (lowerL res.name) (toL ("nsrdb")) = true →
      res.dsets.contains (toL ("dni")) = true →
      res.chunkShape (toL ("dni")) = none →
      Gen.run_smart_sites_per_split none res = Except.ok 100)
    ∧ (∀ d, containsL (lowerL res.name) (toL ("wtk")) = true →
      res.dsets.find? (fun x => containsL x (toL ("speed"))) = some d →
      res.chunkShape d = none →
      Gen.run_smart_sites_per_split none res = Except.ok 100)
    ∧ (containsL (lowerL res.name) (toL ("wtk")) = false →
      containsL (lowerL res.name) (toL ("nsrdb")) = false →
      Gen.run_smart_sites_per_split none res =
        Except.error (toL ("Expected nsrdb or wtk to be in resource filename")))
    ∧ (∀ s, Gen.run_smart_sites_per_split (some s) res = Except.ok s) := by
  refine ⟨fun h1 h2 h3 h4 => ?_, fun d h1 h2 h3 => ?_, fun h1 h2 => ?_,
    fun s => rfl⟩
  · have h3m : toL ("dni") ∈ res.dsets := by simpa using h3
    simp [Gen.run_smart_sites_per_split, Gen.sites_per_core, h1, h2, h3m, h4]
  · simp [Gen.run_smart_sites_per_split, Gen.sites_per_core, h1, h2, h3]
  · simp [Gen.run_smart_sites_per_split, Gen.sites_per_core, h1, h2]

/-- Witness for `run_smart_chunk_default_amended` at concrete nsrdb and wtk
resource files whose chunking hints are unset. -/
theorem run_smart_chunk_default_amended_witness :
    Gen.run_smart_sites_per_split none
        ⟨toL ("ri_100_nsrdb_2012.h5"), [toL ("dni")], fun _ => none⟩ =
      Except.ok 100
    ∧ Gen.run_smart_sites_per_split none
        ⟨toL ("wtk_2012.h5"), [toL ("windspeed_100m")], fun _ => none⟩ =
      Except.ok 100 := by
  constructor
  · exact (run_smart_chunk_default_amended _).1 (by decide) (by decide)
      (by decide) rfl
  · exact (run_smart_chunk_default_amended _).2.1 (toL ("windspeed_100m"))
      (by decide) (by decide) rfl

/-- C4 counterexample: with `ceil(100 / 3) = 34` sites per node, the node
sub-ranges for 100 sites across 3 nodes are `[0,34)`, `[34,68)`, `[68,100)`;
the claimed `[0,34)`, `[34,67)`, `[67,100)` — whose middle node would hold
only 33 sites, contradicting the ceil-based sizing — is not the produced
partition. -/
theorem node_ranges_counterexample :
    get_node_pc_ranges 100 3 = [(0, 34), (34, 68), (68, 100)]
    ∧ get_node_pc_ranges 100 3 ≠ [(0, 34), (34, 67), (67, 100)] := by
  constructor
  · decide
  · decide

theorem le_ceil_mul (a b : ℕ) (hb : 0 < b) : a ≤ ((a + b - 1) / b) * b := by
  have hmod := Nat.div_add_mod (a + b - 1) b
  have hmlt : (a + b - 1) % b < b := Nat.mod_lt _ hb
  rw [Nat.mul_comm b ((a + b - 1) / b)] at hmod
  generalize ((a + b - 1) / b) * b = m at hmod ⊢
  omega

theorem ceil_mul_le (a b : ℕ) : ((a + b - 1) / b) * b ≤ a + b - 1 :=
  Nat.div_mul_le_self _ _

/-- C4 (amended): Node Fan-Out assigns node `i` the contiguous sub-range
`[i*s, min((i+1)*s, total))` with `s = ceil(total / nodes)`: the partition
is non-empty, every node except possibly the last holds exactly `s` sites,
consecutive sub-ranges abut, the first starts at 0 and the last ends at
`total` holding at most `s` sites; in particular, for 100 sites split across
3 nodes the sub-ranges are `[0,34)`, `[34,68)`, `[68,100)`. -/
theorem node_ranges_ceil_amended (total nodes : ℕ) (ht : 0 < total)
    (hn : 0 < nodes) :
    get_node_pc_ranges total nodes ≠ []
    ∧ (∀ i : ℕ, ∀ h : i < (get_node_pc_ranges total nodes).length,
        (get_node_pc_ranges total nodes).get ⟨i, h⟩ =
          (i * sites_per_node total nodes,
            min ((i + 1) * sites_per_node total nodes) total))
    ∧ (∀ i : ℕ, ∀ h : i < (get_node_pc_ranges total nodes).length,
        i + 1 < (get_node_pc_ranges total nodes).length →
        ((get_node_pc_ranges total nodes).get ⟨i, h⟩).2 -
          ((get_node_pc_ranges total nodes).get ⟨i, h⟩).1 =
          sites_per_node total nodes)
    ∧ (∀ i : ℕ, ∀ h : i + 1 < (get_node_pc_ranges total nodes).length,
        ((get_node_pc_ranges total nodes).get ⟨i + 1, h⟩).1 =
          ((get_node_pc_ranges total nodes).get ⟨i, Nat.lt_of_succ_lt h⟩).2)
    ∧ (∀ h : 0 < (get_node_pc_ranges total nodes).length,
        ((get_node_pc_ranges total nodes).get ⟨0, h⟩).1 = 0)
    ∧ (∀ h : (get_node_pc_ranges total nodes).length - 1 <
          (get_node_pc_ranges total nodes).length,
        ((get_node_pc_ranges total nodes).get
            ⟨(get_node_pc_ranges total nodes).length - 1, h⟩).2 = total
        ∧ ((get_node_pc_ranges total nodes).get
              ⟨(get_node_pc_ranges total nodes).length - 1, h⟩).2 -
            ((get_node_pc_ranges total nodes).get
              ⟨(get_node_pc_ranges total nodes).length - 1, h⟩).1 ≤
            sites_per_node total nodes)
    ∧ get_node_pc_ranges 100 3 = [(0, 34), (34, 68), (68, 100)] := by
  have hs : 0 < sites_per_node total nodes := by
    have h1 : nodes ≤ total + nodes - 1 := by omega
    have h2 := (Nat.one_le_div_iff hn).mpr h1
    simpa [sites_per_node] using h2
  have hlen : (get_node_pc_ranges total nodes).length =
      (total + sites_per_node total nodes - 1) / sites_per_node total nodes := by
    simp [get_node_pc_ranges, pointsControlRanges]
  have hkpos : 0 < (get_node_pc_ranges total nodes).length := by
    rw [hlen]
    have h1 : sites_per_node total nodes ≤
        total + sites_per_node total nodes - 1 := by omega
    exact (Nat.one_le_div_iff hs).mpr h1
  have key : ∀ i : ℕ, ∀ h : i < (get_node_pc_ranges total nodes).length,
      (get_node_pc_ranges total nodes).get ⟨i, h⟩ =
        (i * sites_per_node total nodes,
          min ((i + 1) * sites_per_node total nodes) total) := by
    intro i h
    simp [get_node_pc_ranges, pointsControlRanges, List.get_eq_getElem]
  have hstep : ∀ i : ℕ, i + 1 < (get_node_pc_ranges total nodes).length →
      (i + 1) * sites_per_node total nodes ≤ total := by
    intro i hi
    rw [hlen] at hi
    calc (i + 1) * sites_per_node total nodes
        ≤ ((total + sites_per_node total nodes - 1) / sites_per_node total nodes
            - 1) * sites_per_node total nodes :=
          Nat.mul_le_mul_right _ (by omega)
      _ = ((total + sites_per_node total nodes - 1) / sites_per_node total nodes)
            * sites_per_node total nodes - sites_per_node total nodes := by
          rw [Nat.sub_mul, Nat.one_mul]
      _ ≤ (total + sites_per_node total nodes - 1) - sites_per_node total nodes :=
          Nat.sub_le_sub_right (ceil_mul_le total _) _
      _ ≤ total := by omega
  have hlast : total ≤
      (get_node_pc_ranges total nodes).length * sites_per_node total nodes := by
    rw [hlen]
    exact le_ceil_mul total _ hs
  refine ⟨?_, key, ?_, ?_, ?_, ?_, by decide⟩
  · intro hnil
    rw [hnil] at hkpos
    simp at hkpos
  · intro i h hi1
    rw [key i h]
    dsimp only
    rw [Nat.min_eq_left (hstep i hi1), Nat.succ_mul]
    generalize i * sites_per_node total nodes = m
    omega
  · intro i h
    rw [key (i + 1) h, key i (Nat.lt_of_succ_lt h)]
    dsimp only
    rw [Nat.min_eq_left (hstep i h)]
  · intro h
    rw [key 0 h]
    dsimp only
    exact Nat.zero_mul _
  · intro h
    rw [key _ h]
    dsimp only
    have hk1 : (get_node_pc_ranges total nodes).length - 1 + 1 =
        (get_node_pc_ranges total nodes).length := by omega
    rw [hk1]
    refine ⟨Nat.min_eq_right hlast, ?_⟩
    rw [Nat.min_eq_right hlast]
    have h2 : ((get_node_pc_ranges total nodes).length - 1) *
          sites_per_node total nodes =
        (get_node_pc_ranges total nodes).length * sites_per_node total nodes -
          sites_per_node total nodes := by
      rw [Nat.sub_mul, Nat.one_mul]
    rw [h2]
    generalize (get_node_pc_ranges total nodes).length *
      sites_per_node total nodes = m at h2 hlast ⊢
    omega

/-- Witness for `node_ranges_ceil_amended` at 100 sites across 3 nodes. -/
theorem node_ranges_ceil_amended_witness :
    get_node_pc_ranges 100 3 = [(0, 34), (34, 68), (68, 100)] :=
  (node_ranges_ceil_amended 100 3 (by decide) (by decide)).2.2.2.2.2.2

theorem fmt02_length : ∀ i < 100, (fmt02 i).length = 2 := by decide

/-- C9: for every base job name and node index below 100, the node job name
is the base name truncated to the scheduler-specific limit — 6 characters
for slurm, 14 for pbs — followed by the full `'{:02d}'`-formatted two-digit
node index; the suffix is appended whole, never truncated, so the name is
at most 8 characters for slurm and at most 16 for pbs. -/
theorem node_name_truncation (name fout : PyStr) (i : ℕ) (h : i < 100) :
    (∃ f, get_node_name_fout name fout i (toL ("slurm")) =
      Except.ok (name.take 6 ++ fmt02 i, f))
    ∧ (∃ f, get_node_name_fout name fout i (toL ("pbs")) =
      Except.ok (name.take 14 ++ fmt02 i, f))
    ∧ (fmt02 i).length = 2
    ∧ (name.take 6 ++ fmt02 i).length ≤ 8
    ∧ (name.take 14 ++ fmt02 i).length ≤ 16 := by
  have h2 : (fmt02 i).length = 2 := fmt02_length i h
  refine ⟨⟨_, rfl⟩, ⟨_, rfl⟩, h2, ?_, ?_⟩
  · simp only [List.length_append, List.length_take, h2]
    omega
  · simp only [List.length_append, List.length_take, h2]
    omega

/-- Witness for `node_name_truncation` at the concrete node index 7. -/
theorem node_name_truncation_witness :
    (toL ("reVgenjob")).take 6 ++ fmt02 7 = toL ("reVgen07")
    ∧ ((toL ("reVgenjob")).take 6 ++ fmt02 7).length ≤ 8 :=
  ⟨by decide,
   (node_name_truncation (toL ("reVgenjob")) (toL ("x.h5")) 7 (by decide)).2.2.2.1⟩

theorem startsWithL_self_append (x y : PyStr) : startsWithL (x ++ y) x = true := by
  induction x with
  | nil => simp [startsWithL]
  | cons c t ih => simp [startsWithL, ih]

theorem endsWithL_self_append (s p : PyStr) : endsWithL (s ++ p) p = true := by
  simp only [endsWithL, List.reverse_append]
  exact startsWithL_self_append _ _

theorem lstripSet_no_head (chars : PyStr) (s : PyStr)
    (h : ∀ c, s.head? = some c → chars.contains c = false) :
    lstripSet chars s = s := by
  cases s with
  | nil => rfl
  | cons c t =>
    have hc := h c rfl
    show (if chars.contains c then lstripSet chars t else c :: t) = c :: t
    rw [hc]
    simp

theorem stripSet_append_ext (stem : PyStr) (c0 cl : Char)
    (h0 : stem.head? = some c0) (hl : stem.getLast? = some cl)
    (hc0 : (toL (".h5")).contains c0 = false)
    (hcl : (toL (".h5")).contains cl = false) :
    stripSet (toL (".h5")) (stem ++ toL (".h5")) = stem := by
  have hrev : (stem ++ toL (".h5")).reverse = '5' :: 'h' :: '.' :: stem.reverse := by
    simp [toL]
  rw [stripSet, hrev]
  have c5 : '5' ∈ toL (".h5") := by decide
  have ch : 'h' ∈ toL (".h5") := by decide
  have cd : '.' ∈ toL (".h5") := by decide
  have h1 : lstripSet (toL (".h5")) ('5' :: 'h' :: '.' :: stem.reverse) =
      lstripSet (toL (".h5")) stem.reverse := by
    simp [lstripSet, c5, ch, cd]
  rw [h1]
  have h2 : lstripSet (toL (".h5")) stem.reverse = stem.reverse := by
    apply lstripSet_no_head
    intro c hc
    rw [List.head?_reverse, hl] at hc
    cases hc
    exact hcl
  rw [h2, List.reverse_reverse]
  apply lstripSet_no_head
  intro c hc
  rw [h0] at hc
  cases hc
  exact hc0

/-- C10: for a base output file name `stem + '.h5'` whose stem neither
begins nor ends with any of the characters '.', 'h', '5', the node output
file name produced by `get_node_name_fout` is exactly the stem followed by
`_node`, the two-digit node index and `.h5`; but for `'birch.h5'`, whose
stem ends in 'h', the character-set semantics of `strip('.h5')` removes the
final 'h' of the stem as well, producing `'birc_node00.h5'` — the base stem
is not preserved. -/
theorem fout_node_stem (name stem : PyStr) (i : ℕ) (c0 cl : Char)
    (h0 : stem.head? = some c0) (hl : stem.getLast? = some cl)
    (hc0 : (toL (".h5")).contains c0 = false)
    (hcl : (toL (".h5")).contains cl = false) :
    (∃ nn, get_node_name_fout name (stem ++ toL (".h5")) i (toL ("slurm")) =
      Except.ok (nn, stem ++ toL ("_node") ++ fmt02 i ++ toL (".h5")))
    ∧ get_node_name_fout name (toL ("birch.h5")) 0 (toL ("slurm")) =
        Except.ok (name.take 6 ++ fmt02 0, toL ("birc_node00.h5")) := by
  constructor
  · refine ⟨name.take 6 ++ fmt02 i, ?_⟩
    have he : endsWithL (stem ++ toL (".h5")) (toL (".h5")) = true :=
      endsWithL_self_append _ _
    simp only [get_node_name_fout, true_or, if_true, he]
    rw [stripSet_append_ext stem c0 cl h0 hl hc0 hcl]
  · rfl

/-- Witness for `fout_node_stem` at the concrete base name 'reVgenjob'. -/
theorem fout_node_stem_witness :
    get_node_name_fout (toL ("reVgenjob")) (toL ("birch.h5")) 0 (toL ("slurm")) =
      Except.ok ((toL ("reVgenjob")).take 6 ++ fmt02 0, toL ("birc_node00.h5")) :=
  (fout_node_stem (toL ("reVgenjob")) (toL ("apple")) 0 'a' 'e'
    (by decide) (by decide) (by decide) (by decide)).2

set_option maxHeartbeats 1000000 in
set_option maxRecDepth 100000 in
theorem zfill3_spec : ∀ n < 1000, (zfill3 n).length = 3
    ∧ (zfill3 n).all Char.isDigit = true ∧ tagVal (zfill3 n) = n := by decide

theorem digit_ne_underscore (c : Char) (h : c.isDigit = true) : c ≠ '_' := by
  intro he
  subst he
  exact absurd h (by decide)

theorem lastTag_none_of_no_underscore (s : PyStr) (h : '_' ∉ s) :
    lastTag s = none := by
  induction s with
  | nil => rfl
  | cons c t ih =>
    have ht : '_' ∉ t := fun hm => h (List.mem_cons_of_mem c hm)
    have hc : c ≠ '_' := fun hcc => h (hcc ▸ List.mem_cons_self c t)
    simp only [lastTag, ih ht, Option.elim]
    unfold tagAt
    split
    · exact absurd rfl hc
    · rfl

theorem lastTag_tagged (base : PyStr) (n : ℕ) (hn : n < 1000)
    (hb : '_' ∉ base) : lastTag (taggedName base n) = some (zfill3 n) := by
  induction base with
  | nil =>
    obtain ⟨h3, hall, _⟩ := zfill3_spec n hn
    obtain ⟨d1, d2, d3, hz⟩ := List.length_eq_three.mp h3
    simp only [List.all_eq_true, hz, List.mem_cons, List.not_mem_nil] at hall
    have hd1 : d1.isDigit = true := hall d1 (by simp)
    have hd2 : d2.isDigit = true := hall d2 (by simp)
    have hd3 : d3.isDigit = true := hall d3 (by simp)
    have hshape : taggedName [] n =
        '_' :: 'x' :: d1 :: d2 :: d3 :: '.' :: 'h' :: '5' :: [] := by
      simp [taggedName, hz, toL]
    rw [hshape]
    have htail : '_' ∉ ('x' :: d1 :: d2 :: d3 :: '.' :: 'h' :: '5' :: []) := by
      intro hm
      simp only [List.mem_cons, List.not_mem_nil, or_false] at hm
      rcases hm with h | h | h | h | h | h | h
      · exact absurd h.symm (by decide)
      · exact absurd h.symm (digit_ne_underscore d1 hd1)
      · exact absurd h.symm (digit_ne_underscore d2 hd2)
      · exact absurd h.symm (digit_ne_underscore d3 hd3)
      · exact absurd h.symm (by decide)
      · exact absurd h.symm (by decide)
      · exact absurd h.symm (by decide)
    have hnone : lastTag ('x' :: d1 :: d2 :: d3 :: '.' :: 'h' :: '5' :: []) =
        none := lastTag_none_of_no_underscore _ htail
    have hrw : lastTag ('_' :: 'x' :: d1 :: d2 :: d3 :: '.' :: 'h' :: '5' :: []) =
        (lastTag ('x' :: d1 :: d2 :: d3 :: '.' :: 'h' :: '5' :: [])).elim
          (tagAt '_' ('x' :: d1 :: d2 :: d3 :: '.' :: 'h' :: '5' :: [])) some :=
      rfl
    rw [hrw, hnone]
    show tagAt '_' ('x' :: d1 :: d2 :: d3 :: '.' :: 'h' :: '5' :: []) =
      some (zfill3 n)
    show (if d1.isDigit && d2.isDigit && d3.isDigit then some [d1, d2, d3]
      else none) = some (zfill3 n)
    rw [hd1, hd2, hd3, hz]
    simp
  | cons c base' ih =>
    have hbb : '_' ∉ base' := fun hm => hb (List.mem_cons_of_mem c hm)
    have hstep : taggedName (c :: base') n = c :: taggedName base' n := by
      simp [taggedName]
    rw [hstep]
    simp only [lastTag, ih hbb, Option.elim]

theorem pyReplaceAux_no_first (o' new : PyStr) :
    ∀ (fuel : ℕ) (s : PyStr), '_' ∉ s →
      pyReplaceAux ('_' :: o') new fuel s = s := by
  intro fuel
  induction fuel with
  | zero => intro s _; rfl
  | succ m ih =>
    intro s hs
    cases s with
    | nil => rfl
    | cons c t =>
      have hc : c ≠ '_' := fun hcc => hs (hcc ▸ List.mem_cons_self c t)
      have hbeq : (c == '_') = false := beq_eq_false_iff_ne.mpr hc
      have ht : '_' ∉ t := fun hm => hs (List.mem_cons_of_mem c hm)
      simp [pyReplaceAux, startsWithL, hbeq, ih t ht]

theorem pyReplace_single (o' new base tail : PyStr) (hb : '_' ∉ base)
    (ht : '_' ∉ tail) :
    pyReplace ('_' :: o') new (base ++ ('_' :: o') ++ tail) =
      base ++ new ++ tail := by
  induction base with
  | nil =>
    simp only [List.nil_append]
    rw [List.cons_append]
    show pyReplaceAux ('_' :: o') new ('_' :: (o' ++ tail)).length
      ('_' :: (o' ++ tail)) = new ++ tail
    have hsw : startsWithL ('_' :: (o' ++ tail)) ('_' :: o') = true := by
      rw [← List.cons_append]
      exact startsWithL_self_append _ _
    simp only [List.length_cons, pyReplaceAux, hsw, Bool.true_and,
      List.isEmpty_cons, Bool.not_false, if_true]
    have hdrop : (o' ++ tail).drop (o'.length + 1 - 1) = tail := by
      simp only [Nat.add_sub_cancel]
      exact List.drop_left o' tail
    rw [hdrop, pyReplaceAux_no_first o' new _ tail ht]
  | cons c base' ih =>
    have hc : c ≠ '_' := fun hcc => hb (hcc ▸ List.mem_cons_self c base')
    have hbb : '_' ∉ base' := fun hm => hb (List.mem_cons_of_mem c hm)
    have hbeq : (c == '_') = false := beq_eq_false_iff_ne.mpr hc
    rw [List.cons_append, List.cons_append]
    show pyReplaceAux ('_' :: o') new
        (c :: (base' ++ ('_' :: o') ++ tail)).length
        (c :: (base' ++ ('_' :: o') ++ tail)) = c :: (base' ++ new ++ tail)
    simp only [List.length_cons, pyReplaceAux, startsWithL, hbeq,
      Bool.false_and, Bool.false_eq_true, if_false]
    have hres := ih hbb
    simp only [pyReplace] at hres
    rw [hres]

theorem get_unique_fout_step (fs : FileSys) (base : PyStr) (hb : '_' ∉ base)
    (n fuel : ℕ) (hn : n + 1 < 1000) (hmem : taggedName base n ∈ fs) :
    Gen.get_unique_fout fs (fuel + 1) (taggedName base n) =
      Gen.get_unique_fout fs fuel (taggedName base (n + 1)) := by
  have hcont : fs.contains (taggedName base n) = true := by
    simpa using hmem
  have hlast : lastTag (taggedName base n) = some (zfill3 n) :=
    lastTag_tagged base n (by omega) hb
  have hval : tagVal (zfill3 n) = n := (zfill3_spec n (by omega)).2.2
  have hnu : '_' ∉ toL (".h5") := by decide
  have hrepl : pyReplace (toL ("_x") ++ zfill3 n)
      (toL ("_x") ++ zfill3 (tagVal (zfill3 n) + 1)) (taggedName base n) =
      taggedName base (n + 1) := by
    rw [hval]
    have e1 : toL ("_x") ++ zfill3 n = '_' :: 'x' :: zfill3 n := rfl
    have e2 : toL ("_x") ++ zfill3 (n + 1) = '_' :: 'x' :: zfill3 (n + 1) := rfl
    have e3 : taggedName base n =
        base ++ ('_' :: 'x' :: zfill3 n) ++ toL (".h5") := by
      simp only [taggedName, List.append_assoc]
      rfl
    have e4 : taggedName base (n + 1) =
        base ++ ('_' :: 'x' :: zfill3 (n + 1)) ++ toL (".h5") := by
      simp only [taggedName, List.append_assoc]
      rfl
    rw [e1, e2, e3, e4]
    exact pyReplace_single ('x' :: zfill3 n) ('_' :: 'x' :: zfill3 (n + 1))
      base (toL (".h5")) hb hnu
  simp only [Gen.get_unique_fout, hcont, if_true, hlast]
  rw [hrepl]

theorem get_unique_fout_chain (fs : FileSys) (base : PyStr) (hb : '_' ∉ base) :
    ∀ (k n fuel : ℕ), n + k ≤ 999 → k < fuel →
    (∀ j, j < k → taggedName base (n + j) ∈ fs) →
    taggedName base (n + k) ∉ fs →
    Gen.get_unique_fout fs fuel (taggedName base n) = taggedName base (n + k) := by
  intro k
  induction k with
  | zero =>
    intro n fuel _ hf _ hout
    cases fuel with
    | zero => omega
    | succ m =>
      have hout0 : taggedName base n ∉ fs := by
        rwa [Nat.add_zero] at hout
      have hcont : fs.contains (taggedName base n) = false := by
        simpa using hout0
      simp only [Gen.get_unique_fout, hcont, Bool.false_eq_true, if_false,
        Nat.add_zero]
  | succ k ih =>
    intro n fuel hle hf hmemall hout
    cases fuel with
    | zero => omega
    | succ m =>
      have h0 : taggedName base n ∈ fs := by
        have h00 := hmemall 0 (by omega)
        rwa [Nat.add_zero] at h00
      rw [get_unique_fout_step fs base hb n m (by omega) h0]
      have harg : ∀ j, j < k → taggedName base (n + 1 + j) ∈ fs := by
        intro j hj
        have hjm := hmemall (j + 1) (by omega)
        have he : n + (j + 1) = n + 1 + j := by omega
        rwa [he] at hjm
      have hout2 : taggedName base (n + 1 + k) ∉ fs := by
        have he : n + (k + 1) = n + 1 + k := by omega
        rwa [he] at hout
      rw [ih (n + 1) m (by omega) (by omega) harg hout2]
      have he : n + 1 + k = n + (k + 1) := by omega
      rw [he]

/-- C8: writing to an existing path 'x.h5' twice in succession (without
deletion) produces 'x_x000.h5' and then 'x_x001.h5' (first two conjuncts); a
requested name that does not end in '.h5' has the extension appended with a
warning, not an error, and is then processed exactly like the corrected name
(third conjunct); and for every tagged candidate name over a base stem free
of underscores, the `_x` tag is incremented until the first tag whose name
does not collide, and that non-colliding name is returned — an existing
file is never silently overwritten (fourth conjunct). -/
theorem handle_fout_disambiguation :
    Gen.handle_fout [] 8 (toL ("x.h5")) none = (toL ("x_x000.h5"), false)
    ∧ Gen.handle_fout [toL ("x_x000.h5")] 8 (toL ("x.h5")) none =
        (toL ("x_x001.h5"), false)
    ∧ (∀ (fs : FileSys) (fuel : ℕ) (fout : PyStr) (d : Option PyStr),
        endsWithL fout (toL (".h5")) = false →
        (Gen.handle_fout fs fuel fout d).2 = true
        ∧ (Gen.handle_fout fs fuel fout d).1 =
            (Gen.handle_fout fs fuel (fout ++ toL (".h5")) d).1)
    ∧ (∀ (fs : FileSys) (base : PyStr) (n k fuel : ℕ), '_' ∉ base →
        n + k ≤ 999 → k < fuel →
        (∀ j, j < k → taggedName base (n + j) ∈ fs) →
        taggedName base (n + k) ∉ fs →
        Gen.get_unique_fout fs fuel (taggedName base n) =
            taggedName base (n + k)
        ∧ Gen.get_unique_fout fs fuel (taggedName base n) ∉ fs) := by
  refine ⟨by decide, by decide, ?_, ?_⟩
  · intro fs fuel fout d h
    have he : endsWithL (fout ++ toL (".h5")) (toL (".h5")) = true :=
      endsWithL_self_append _ _
    constructor
    · simp [Gen.handle_fout, h]
    · simp [Gen.handle_fout, h, he]
  · intro fs base n k fuel hb h1 h2 h3 h4
    have hmain := get_unique_fout_chain fs base hb k n fuel h1 h2 h3 h4
    exact ⟨hmain, hmain ▸ h4⟩

/-- Witness for `handle_fout_disambiguation`: the extension warning at the
concrete name 'gen', and a one-step tag increment at the concrete base 'y'
colliding with 'y_x000.h5'. -/
theorem handle_fout_disambiguation_witness :
    (Gen.handle_fout [] 4 (toL ("gen")) none).2 = true
    ∧ Gen.get_unique_fout [taggedName (toL ("y")) 0] 3
        (taggedName (toL ("y")) 0) = taggedName (toL ("y")) 1 := by
  constructor
  · exact (handle_fout_disambiguation.2.2.1 [] 4 (toL ("gen")) none
      (by decide)).1
  · have h := (handle_fout_disambiguation.2.2.2 [taggedName (toL ("y")) 0]
      (toL ("y")) 0 1 3 (by decide) (by decide) (by decide)
      (by decide) (by decide)).1
    simpa using h
